import Mathlib

/-!
Verification of the chat broker (`chat_server.py`) and relay proxy
(`chat_relay.py`) against their natural-language specification.

Python strings are modelled as `List Char`; raw socket bytes as `List Nat`
(each value below 256); machine integers as `Nat`/`Int` with explicit
modular reduction where overflow matters.  The `pickle` library is modelled
by an abstract codec with its documented round-trip property; the platform
parameters of `struct.pack("L", ·)` (the size of a native unsigned long)
appear as an explicit `ulong_size` argument, with the native byte order
fixed to little-endian (x86-64 / ARM little-endian deployments).
-/

namespace ChatSpec

/-! ### Frame transport (`send_message` / `receive_message`) -/

/-- `struct.pack` of an unsigned integer as `width` little-endian bytes
(native byte order of a little-endian platform). -/
def packBytes : Nat → Nat → List Nat
  | 0, _ => []
  | w + 1, v => v % 256 :: packBytes w (v / 256)

/-- Value of a little-endian byte list. -/
def leValue : List Nat → Nat
  | [] => 0
  | b :: bs => b % 256 + 256 * leValue bs

/-- `struct.unpack("L", bs)[0]`: fails (raises `struct.error`) unless the
buffer is exactly the native unsigned-long width. -/
def unpackBytes (width : Nat) (bs : List Nat) : Option Nat :=
  if bs.length = width then some (leValue bs) else none

/-- `socket.htonl` on a little-endian host: byte-swap of a 32-bit value. -/
def htonl (n : Nat) : Nat :=
  n % 256 * 2 ^ 24 + n / 2 ^ 8 % 256 * 2 ^ 16 + n / 2 ^ 16 % 256 * 2 ^ 8 + n / 2 ^ 24 % 256

/-- `socket.ntohl` on a little-endian host: the same 32-bit byte swap. -/
def ntohl (n : Nat) : Nat :=
  n % 256 * 2 ^ 24 + n / 2 ^ 8 % 256 * 2 ^ 16 + n / 2 ^ 16 % 256 * 2 ^ 8 + n / 2 ^ 24 % 256

/-- Abstract model of `pickle` restricted to the one-string tuples the chat
programs exchange: `dumps` is `pickle.dumps((s,))`, `loads` is
`pickle.loads(b)[0]` (`none` when unpickling raises), and unpickling a
pickled value yields it back. -/
structure PickleCodec where
  dumps : List Char → List Nat
  loads : List Nat → Option (List Char)
  loads_dumps : ∀ s, loads (dumps s) = some s

/-- `send_message(channel, payload)`: pickles the payload, prefixes the
byte-swapped length packed as a native unsigned long, and writes both.
`none` models `socket.htonl` raising `OverflowError` on a length that does
not fit 32 bits (caught, so the Python function returns `False` and writes
nothing). -/
def send_message (c : PickleCodec) (ulong_size : Nat) (payload : List Char) :
    Option (List Nat) :=
  let buffer := c.dumps payload
  if buffer.length < 2 ^ 32 then
    some (packBytes ulong_size (htonl buffer.length) ++ buffer)
  else
    none

/-- The reassembly loop `while len(buf) < size: buf += channel.recv(size - len(buf))`.
`stream` is the byte sequence still to be delivered, `chunks i` bounds how
many bytes the `i`-th `recv` returns.  `none` models the loop never
terminating (a `recv` that returns no bytes makes no progress and the loop
spins forever). -/
def read_loop : Nat → List Nat → (Nat → Nat) → Nat → List Nat → Option (List Nat)
  | fuel, stream, chunks, size, buf =>
    if size ≤ buf.length then some buf
    else
      match fuel with
      | 0 => none
      | fuel + 1 =>
        let got := stream.take (min (size - buf.length) (chunks 0))
        if got = [] then none
        else read_loop fuel (stream.drop got.length) (fun i => chunks (i + 1)) size (buf ++ got)

/-- `receive_message(channel)`: a single `recv` for the length header (not
looped), `ntohl`, then the reassembly loop and `pickle.loads(buf)[0]`.
Returns `some []` (the empty string) on a closed peer and on any caught
exception; `none` models divergence of the reassembly loop. -/
def receive_message (c : PickleCodec) (ulong_size : Nat) (stream : List Nat)
    (chunks : Nat → Nat) : Option (List Char) :=
  let size_data := stream.take (min ulong_size (chunks 0))
  if size_data = [] then some []
  else
    match unpackBytes ulong_size size_data with
    | none => some []
    | some v =>
      if v < 2 ^ 32 then
        let size := ntohl v
        match read_loop size (stream.drop size_data.length) (fun i => chunks (i + 1)) size [] with
        | some buf => some ((c.loads buf).getD [])
        | none => none
      else some []

/-- The frame layout the specification prescribes: a 4-byte length in
network byte order (big-endian) followed by the payload bytes.  Stated from
the spec's words, for comparison with what `send_message` produces. -/
def specFrame (payloadBytes : List Nat) : List Nat :=
  [payloadBytes.length / 2 ^ 24 % 256, payloadBytes.length / 2 ^ 16 % 256,
   payloadBytes.length / 2 ^ 8 % 256, payloadBytes.length % 256] ++ payloadBytes

/-- A concrete codec instance (an injective byte rendering of the char
list), used to evaluate the transport on closed inputs. -/
def flatCodec : PickleCodec where
  dumps s := s.map Char.toNat
  loads bs := some (bs.map Char.ofNat)
  loads_dumps s := by
    simp [List.map_map, Function.comp_def]

/-! ### Python `str.split` and the relay's nickname rewrite -/

/-- Fuelled core of Python `s.split(sep)` for a non-empty separator:
splits on non-overlapping occurrences of `sep`, scanning left to right.
The fuel only needs to dominate the length of `s`. -/
def pySplitAux (sep : List Char) : Nat → List Char → List (List Char)
  | _, [] => [[]]
  | 0, s => [s]
  | fuel + 1, ch :: rest =>
    if sep ≠ [] ∧ sep.isPrefixOf (ch :: rest) then
      [] :: pySplitAux sep fuel ((ch :: rest).drop sep.length)
    else
      match pySplitAux sep fuel rest with
      | [] => [[ch]]
      | hd :: tl => (ch :: hd) :: tl

/-- Python `s.split(sep)` (no maxsplit, non-empty separator). -/
def pySplit (sep s : List Char) : List (List Char) :=
  pySplitAux sep s.length s

/-- The handshake marker `'NAME: '`. -/
def nameSep : List Char := ['N', 'A', 'M', 'E', ':', ' ']

/-- `ChatRelay.rewrite_nickname`: on a frame starting with `'NAME: '`, take
`data.split('NAME: ')[1]` and, unless it already starts with `'*'`, rebuild
the frame as `'NAME: *' + nickname`. -/
def rewrite_nickname (data : List Char) : List Char :=
  if nameSep.isPrefixOf data then
    let nickname := (pySplit nameSep data).getD 1 []
    if ¬ (['*'].isPrefixOf nickname) then nameSep ++ '*' :: nickname
    else data
  else data

/-- One direction of `ChatRelay.forward_data`, applied to the sequence of
decoded frames read from the source socket.  An empty frame means the peer
closed: forwarding stops.  On the client→server direction the first frame,
when it starts with `'NAME: '`, is passed through `rewrite_nickname`; the
first-frame flag is cleared after the first client→server frame whether or
not it matched. -/
def forward_data (is_client_to_server : Bool) (first_message : Bool) :
    List (List Char) → List (List Char)
  | [] => []
  | data :: rest =>
    if data = [] then []
    else
      let data' :=
        if is_client_to_server ∧ first_message ∧ nameSep.isPrefixOf data then
          rewrite_nickname data
        else data
      let first' := if is_client_to_server ∧ first_message then false else first_message
      data' :: forward_data is_client_to_server first' rest

/-! ### Identity registry (`generate_unique_nickname`, `handle_new_connection`) -/

/-- The three digit characters drawn by `random.choices(string.digits, k=3)`:
outcome `k` (taken mod 1000) yields the digits of `k` zero-padded to width
three.  Every three-digit suffix is `threeDigits k` for exactly one
`k < 1000`. -/
def threeDigits (k : Nat) : List Char :=
  [Nat.digitChar (k / 100 % 10), Nat.digitChar (k / 10 % 10), Nat.digitChar (k % 10)]

/-- The collision loop of `generate_unique_nickname`: draw suffixes from the
random stream `oracle` until `base ++ suffix` is not a held nickname.
`none` models exhausting the modelled stream (the Python loop would keep
drawing). -/
def gen_loop (held : List (List Char)) (base : List Char) : List Nat → Option (List Char)
  | [] => none
  | k :: oracle =>
    let new_nickname := base ++ threeDigits k
    if new_nickname ∈ held then gen_loop held base oracle else some new_nickname

/-- `ChatServer.generate_unique_nickname`: the requested name unchanged when
it is not a key of `nickname_map` (modelled by its key list `held`),
otherwise the collision loop. -/
def generate_unique_nickname (held : List (List Char)) (base : List Char)
    (oracle : List Nat) : Option (List Char) :=
  if base ∈ held then gen_loop held base oracle else some base

/-- Outcome of a handshake attempt in `handle_new_connection`. -/
inductive HandshakeOutcome
  | closed
  | rejected
  | joined (assigned : List Char)
  deriving DecidableEq

/-- The handshake portion of `ChatServer.handle_new_connection`, projected
to its effect on the nickname registry: reject the first frame unless it
starts with `'NAME: '`; extract the requested name as
`cname.split('NAME: ')[1]`; send `ERROR` and close when it starts with
`'*'`; otherwise install the generated unique nickname.  A `none` from the
generator (collision loop never succeeding) leaves the registry unchanged. -/
def handle_new_connection (held : List (List Char)) (frame : List Char)
    (oracle : List Nat) : HandshakeOutcome × List (List Char) :=
  if frame = [] ∨ ¬ nameSep.isPrefixOf frame then (.closed, held)
  else
    let cname := (pySplit nameSep frame).getD 1 []
    if ['*'].isPrefixOf cname then (.rejected, held)
    else
      match generate_unique_nickname held cname oracle with
      | some assigned => (.joined assigned, assigned :: held)
      | none => (.closed, held)

/-- One registry-relevant event: a handshake (with the first frame and the
random-suffix stream it consumes) or a disconnect of a named session. -/
inductive RegEvent
  | join (frame : List Char) (oracle : List Nat)
  | leave (name : List Char)

/-- Registry transition: a join installs the handshake's assigned name (if
any); `handle_client_disconnect` deletes exactly the leaver's entry from
`nickname_map`. -/
def regStep (held : List (List Char)) : RegEvent → List (List Char)
  | .join frame oracle => (handle_new_connection held frame oracle).2
  | .leave name => held.erase name

/-! ### Rate limiter (`RateLimiter.check_rate`) -/

/-- Configured `MESSAGE_RATE_LIMIT` (messages per window). -/
def MESSAGE_RATE_LIMIT : Nat := 10

/-- Configured `RATE_LIMIT_WINDOW` (seconds). -/
def RATE_LIMIT_WINDOW : Int := 60

/-- `RateLimiter.check_rate` on one identity's recorded times: prune entries
outside the window ending at `now`, deny when at least `max_messages`
remain, otherwise record `now` and admit.  Returns the admission verdict and
the list stored back into `message_times`. -/
def check_rate (max_messages : Nat) (time_window : Int) (times : List Int)
    (now : Int) : Bool × List Int :=
  let kept := times.filter (fun t => now - t < time_window)
  if max_messages ≤ kept.length then (false, kept)
  else (true, kept ++ [now])

/-- A sequence of `check_rate` calls at the given times, threading the
stored list; returns the verdicts and the final stored list. -/
def run_checks (max_messages : Nat) (time_window : Int) :
    List Int → List Int → List Bool × List Int
  | [], times => ([], times)
  | now :: rest, times =>
    let r := check_rate max_messages time_window times now
    let rs := run_checks max_messages time_window rest r.2
    (r.1 :: rs.1, rs.2)

/-! ### Offline mailbox -/

/-- A stored offline entry: `(sender nickname, message text, timestamp)`. -/
abbrev OfflineEntry := List Char × List Char × List Char

/-- The `offline_messages` dict, as a partial map from nickname to its
queue. -/
abbrev Mailbox := List Char → Option (List OfflineEntry)

/-- The offline branch of `ChatServer.send_private_message`: create the
queue if absent and append the entry. -/
def enqueue_offline (mb : Mailbox) (target : List Char) (entry : OfflineEntry) : Mailbox :=
  fun n => if n = target then some ((mb target).getD [] ++ [entry]) else mb n

/-- Enqueue a whole sequence of entries for one recipient, oldest first. -/
def enqueue_all (mb : Mailbox) (target : List Char) : List OfflineEntry → Mailbox
  | [] => mb
  | e :: es => enqueue_all (enqueue_offline mb target e) target es

/-- The line `ChatServer.deliver_offline_messages` sends for one stored
entry: `[<timestamp>] OFFLINE MESSAGE from <sender>: <text>`. -/
def format_offline (e : OfflineEntry) : List Char :=
  ("[".toList) ++ e.2.2 ++ ("] OFFLINE MESSAGE from ".toList) ++ e.1 ++ (": ".toList) ++ e.2.1

/-- `ChatServer.deliver_offline_messages`: when the joining nickname has a
queue, send every entry in order and delete the queue; otherwise send
nothing.  Returns the frames sent to the joining client and the updated
`offline_messages`. -/
def deliver_offline_messages (mb : Mailbox) (nickname : List Char) :
    List (List Char) × Mailbox :=
  match mb nickname with
  | some messages =>
    (messages.map format_offline, fun n => if n = nickname then none else mb n)
  | none => ([], mb)

/-! ### Dispatcher state and the client-message / disconnect handlers -/

/-- Python dict assignment `d[k] = v` on an association list: replace the
value at an existing key in place, or append the new binding. -/
def dictSet {α β : Type} [DecidableEq α] : List (α × β) → α → β → List (α × β)
  | [], k, v => [(k, v)]
  | (k', v') :: rest, k, v =>
    if k' = k then (k, v) :: rest else (k', v') :: dictSet rest k v

/-- Python `del d[k]` guarded by `if k in d` on an association list. -/
def dictDel {α β : Type} [DecidableEq α] (l : List (α × β)) (k : α) : List (α × β) :=
  l.eraseP (fun p => p.1 = k)

/-- The broker state `handle_client_message` / `handle_client_disconnect`
touch: sockets are opaque handles (`Nat`), `clientmap` maps a socket to its
`(address, nickname)` pair, `nickname_map` is the inverse on nicknames. -/
structure DispState where
  clients : Int
  clientmap : List (Nat × (Nat × List Char))
  nickname_map : List (List Char × Nat)
  outputs : List Nat
  rate_times : List (List Char × List Int)
  total_messages : Nat
  private_messages : Nat
  offline_messages : Mailbox

/-- `ChatServer.get_client_name`. -/
def get_client_name (st : DispState) (sock : Nat) : List Char :=
  match (st.clientmap.filter (fun p => p.1 = sock)).head? with
  | some info => info.2.2
  | none => ("Unknown".toList)

/-- `ChatServer.broadcast`: one frame per output socket other than the
excluded one. -/
def broadcast (st : DispState) (message : List Char) (exclude : Option Nat) :
    List (Nat × List Char) :=
  (st.outputs.filter (fun o => some o ≠ exclude)).map (fun o => (o, message))

/-- Python `','.join`. -/
def joinComma : List (List Char) → List Char
  | [] => []
  | [x] => x
  | x :: xs => x ++ ',' :: joinComma xs

/-- `ChatServer.send_user_list`'s frame: `USERLIST:` followed by the
comma-joined keys of `nickname_map`. -/
def user_list_msg (st : DispState) : List Char :=
  ("USERLIST:".toList) ++ joinComma (st.nickname_map.map (fun p => p.1))

/-- Decimal digits of a natural number (fuelled so it reduces in the
kernel). -/
def natCharsAux : Nat → Nat → List Char
  | 0, _ => []
  | fuel + 1, n => if n < 10 then [Nat.digitChar n] else natCharsAux fuel (n / 10) ++ [Nat.digitChar (n % 10)]

/-- Python `str` of an integer. -/
def intChars (i : Int) : List Char :=
  match i with
  | .ofNat n => natCharsAux (n + 1) n
  | .negSucc n => '-' :: natCharsAux (n + 2) (n + 1)

/-- `ChatServer.handle_client_disconnect`: decrement the client counter,
drop the socket from the output set, delete both registry directions and
the rate-limiter state, broadcast the leave notice and republish the member
list to every remaining output.  Returns the new state and the frames sent,
in order. -/
def handle_client_disconnect (st : DispState) (sock : Nat) :
    DispState × List (Nat × List Char) :=
  let client_name := get_client_name st sock
  let st' : DispState :=
    { st with
      clients := st.clients - 1
      outputs := st.outputs.erase sock
      clientmap := dictDel st.clientmap sock
      nickname_map := dictDel st.nickname_map client_name
      rate_times := dictDel st.rate_times client_name }
  let leave_msg := client_name ++ (" left (Total Clients: ".toList) ++ intChars st'.clients ++ (")".toList)
  (st', broadcast st' leave_msg none ++ st'.outputs.map (fun o => (o, user_list_msg st')))

/-- Fuelled core of Python `s.split(' ', maxsplit)`. -/
def pySplitSpAux : Nat → Nat → List Char → List (List Char)
  | _, _, [] => [[]]
  | _, 0, s => [s]
  | 0, _, s => [s]
  | fuel + 1, maxsplit + 1, ch :: rest =>
    if ch = ' ' then [] :: pySplitSpAux fuel maxsplit rest
    else
      match pySplitSpAux fuel (maxsplit + 1) rest with
      | [] => [[ch]]
      | hd :: tl => (ch :: hd) :: tl

/-- Python `s.split(' ', maxsplit)`. -/
def pySplitSp (maxsplit : Nat) (s : List Char) : List (List Char) :=
  pySplitSpAux s.length maxsplit s

/-- `ChatServer.send_private_message`: deliver to an active target (with a
confirmation echo to the sender), or append to the target's offline queue
and notify the sender.  The frame timestamp `ts` stands for
`datetime.datetime.now().strftime('%H:%M:%S')`. -/
def send_private_message (st : DispState) (sender_sock : Nat)
    (target_nickname message ts : List Char) : DispState × List (Nat × List Char) :=
  let sender_name := get_client_name st sender_sock
  match (st.nickname_map.filter (fun p => p.1 = target_nickname)).head? with
  | some p =>
    let pm_msg := ("[".toList) ++ ts ++ ("] PRIVATE from ".toList) ++ sender_name ++ (": ".toList) ++ message
    let echo := ("[".toList) ++ ts ++ ("] PRIVATE to ".toList) ++ target_nickname ++ (": ".toList) ++ message
    ({ st with private_messages := st.private_messages + 1 },
     [(p.2, pm_msg), (sender_sock, echo)])
  | none =>
    ({ st with offline_messages := enqueue_offline st.offline_messages target_nickname (sender_name, message, ts) },
     [(sender_sock, ("User ".toList) ++ target_nickname ++ (" is offline. Message saved for delivery.".toList))])

/-- `ChatServer.handle_client_message`: an empty decoded payload (the signal
`receive_message` also produces for a closed peer) takes the disconnect
path; otherwise the frame passes the rate limiter, then is routed as a
`/pm` command or a public broadcast.  `now` is `time.time()` at the rate
check, `ts` the formatted wall-clock timestamp. -/
def handle_client_message (st : DispState) (sock : Nat) (now : Int) (ts : List Char)
    (data : List Char) : DispState × List (Nat × List Char) :=
  if data ≠ [] then
    let client_name := get_client_name st sock
    let rate := check_rate MESSAGE_RATE_LIMIT RATE_LIMIT_WINDOW
      (((st.rate_times.filter (fun p => p.1 = client_name)).head?.map (fun p => p.2)).getD []) now
    let st1 := { st with rate_times := dictSet st.rate_times client_name rate.2 }
    if rate.1 = false then
      (st1, [(sock, ("RATE_LIMIT: You are sending messages too quickly. Slow down!".toList))])
    else if ("/pm ".toList).isPrefixOf data then
      let parts := pySplitSp 2 data
      if 3 ≤ parts.length then
        send_private_message st1 sock (parts.getD 1 []) (parts.getD 2 []) ts
      else
        (st1, [(sock, ("Usage: /pm <nickname> <message>".toList))])
    else
      let msg := ("[".toList) ++ ts ++ ("] ".toList) ++ client_name ++ (": ".toList) ++ data
      ({ st1 with total_messages := st1.total_messages + 1 }, broadcast st1 msg (some sock))
  else handle_client_disconnect st sock

/-! ## Transport lemmas -/

theorem packBytes_length (w v : Nat) : (packBytes w v).length = w := by
  induction w generalizing v with
  | zero => rfl
  | succ w ih => simp [packBytes, ih]

theorem leValue_packBytes (w v : Nat) (h : v < 2 ^ (8 * w)) :
    leValue (packBytes w v) = v := by
  induction w generalizing v with
  | zero =>
    have : v = 0 := by simpa using h
    simp [this, packBytes, leValue]
  | succ w ih =>
    have e : 2 ^ (8 * (w + 1)) = 2 ^ (8 * w) * 256 := by
      rw [Nat.mul_succ, pow_add]
      norm_num
    have h' : v / 256 < 2 ^ (8 * w) := by
      rw [e] at h
      omega
    simp only [packBytes, leValue, ih _ h']
    omega

theorem htonl_lt (n : Nat) : htonl n < 2 ^ 32 := by
  unfold htonl
  have h1 : n % 256 < 256 := Nat.mod_lt _ (by norm_num)
  have h2 : n / 2 ^ 8 % 256 < 256 := Nat.mod_lt _ (by norm_num)
  have h3 : n / 2 ^ 16 % 256 < 256 := Nat.mod_lt _ (by norm_num)
  have h4 : n / 2 ^ 24 % 256 < 256 := Nat.mod_lt _ (by norm_num)
  norm_num at h1 h2 h3 h4 ⊢
  omega

theorem ntohl_swap (a b c d : Nat) (ha : a < 256) (hb : b < 256) (hc : c < 256)
    (hd : d < 256) :
    ntohl (a * 16777216 + b * 65536 + c * 256 + d) = d * 16777216 + c * 65536 + b * 256 + a := by
  unfold ntohl
  norm_num
  omega

theorem ntohl_htonl (n : Nat) (h : n < 2 ^ 32) : ntohl (htonl n) = n := by
  have h32 : n < 4294967296 := by norm_num at h; exact h
  have hd : n / 16777216 < 256 := by omega
  have e : htonl n = n % 256 * 16777216 + n / 256 % 256 * 65536 + n / 65536 % 256 * 256 + n / 16777216 := by
    unfold htonl
    norm_num
    omega
  rw [e, ntohl_swap (n % 256) (n / 256 % 256) (n / 65536 % 256) (n / 16777216)
    (Nat.mod_lt _ (by norm_num)) (Nat.mod_lt _ (by norm_num))
    (Nat.mod_lt _ (by norm_num)) hd]
  clear e h
  omega

theorem read_loop_complete :
    ∀ (fuel : Nat) (stream : List Nat) (chunks : Nat → Nat) (size : Nat) (buf : List Nat),
      size - buf.length ≤ fuel →
      size - buf.length ≤ stream.length →
      (∀ i, 1 ≤ chunks i) →
      read_loop fuel stream chunks size buf = some (buf ++ stream.take (size - buf.length)) := by
  intro fuel
  induction fuel with
  | zero =>
    intro stream chunks size buf hf hs hc
    have hle : size ≤ buf.length := by omega
    rw [read_loop]
    simp [hle, Nat.sub_eq_zero_of_le hle]
  | succ f ih =>
    intro stream chunks size buf hf hs hc
    rw [read_loop]
    by_cases hle : size ≤ buf.length
    · simp [hle, Nat.sub_eq_zero_of_le hle]
    · have hpos : 1 ≤ size - buf.length := by omega
      have hmin : min (size - buf.length) (chunks 0) ≤ size - buf.length := Nat.min_le_left _ _
      have hgotlen : (stream.take (min (size - buf.length) (chunks 0))).length
          = min (size - buf.length) (chunks 0) := by
        rw [List.length_take]
        have := hc 0
        omega
      have hgotpos : 1 ≤ (stream.take (min (size - buf.length) (chunks 0))).length := by
        rw [hgotlen]
        have := hc 0
        omega
      have hgotne : stream.take (min (size - buf.length) (chunks 0)) ≠ [] := by
        intro hnil
        rw [hnil] at hgotpos
        simp at hgotpos
      simp only [hle, if_false, hgotne, if_neg, ite_false]
      rw [ih]
      · congr 1
        rw [List.length_append, hgotlen, List.append_assoc]
        congr 1
        rw [show size - (buf.length + min (size - buf.length) (chunks 0))
            = size - buf.length - min (size - buf.length) (chunks 0) from by omega]
        rw [← List.take_add]
        congr 1
        omega
      · rw [List.length_append, hgotlen]
        omega
      · rw [List.length_append, List.length_drop, hgotlen]
        omega
      · intro i
        exact hc (i + 1)

/-- The heart of the transport round trip: a frame written by
`send_message` is decoded back to its payload by `receive_message`,
provided the single header `recv` yields the whole header and every later
`recv` makes progress. -/
theorem receive_message_send_message (c : PickleCodec) (ulong_size : Nat) (p : List Char)
    (st : List Nat) (chunks : Nat → Nat)
    (hu : 4 ≤ ulong_size) (hst : send_message c ulong_size p = some st)
    (hc0 : ulong_size ≤ chunks 0) (hc : ∀ i, 1 ≤ chunks i) :
    receive_message c ulong_size st chunks = some p := by
  unfold send_message at hst
  by_cases h32 : (c.dumps p).length < 2 ^ 32
  case neg =>
    simp only [if_neg h32] at hst
    cases hst
  simp only [h32, if_true, Option.some.injEq] at hst
  subst hst
  have hmin : min ulong_size (chunks 0) = ulong_size := Nat.min_eq_left hc0
  have hne : packBytes ulong_size (htonl (c.dumps p).length) ≠ [] := by
    intro hnil
    have := packBytes_length ulong_size (htonl (c.dumps p).length)
    rw [hnil] at this
    simp at this
    omega
  have hunpack : unpackBytes ulong_size (packBytes ulong_size (htonl (c.dumps p).length))
      = some (htonl (c.dumps p).length) := by
    unfold unpackBytes
    rw [packBytes_length, if_pos rfl]
    congr 1
    apply leValue_packBytes
    calc htonl (c.dumps p).length < 2 ^ 32 := htonl_lt _
    _ ≤ 2 ^ (8 * ulong_size) := Nat.pow_le_pow_right (by norm_num) (by omega)
  simp only [receive_message, hmin,
    List.take_left' (packBytes_length ulong_size (htonl (c.dumps p).length)),
    List.drop_left' (packBytes_length ulong_size (htonl (c.dumps p).length)),
    if_neg hne, hunpack, htonl_lt, if_true, ite_true, packBytes_length,
    ntohl_htonl _ h32]
  rw [read_loop_complete ((c.dumps p).length) (c.dumps p) (fun i => chunks (i + 1))
    ((c.dumps p).length) [] (by simp) (by simp) (fun i => hc (i + 1))]
  simp [c.loads_dumps]

theorem htonl_eq (n : Nat) (h : n < 2 ^ 32) :
    htonl n = n % 256 * 16777216 + n / 256 % 256 * 65536 + n / 65536 % 256 * 256 + n / 16777216 := by
  have h32 : n < 4294967296 := by norm_num at h; exact h
  unfold htonl
  norm_num
  omega

theorem packBytes_four (m : Nat) :
    packBytes 4 m = [m % 256, m / 256 % 256, m / 65536 % 256, m / 16777216 % 256] := by
  simp [packBytes, Nat.div_div_eq_div_mul]

theorem packBytes_four_swap (a b c d : Nat) (ha : a < 256) (hb : b < 256) (hc : c < 256)
    (hd : d < 256) :
    packBytes 4 (a * 16777216 + b * 65536 + c * 256 + d) = [d, c, b, a] := by
  rw [packBytes_four]
  simp only [List.cons.injEq, and_true]
  refine ⟨by omega, by omega, by omega, by omega⟩

theorem packBytes_four_htonl (n : Nat) (h : n < 2 ^ 32) :
    packBytes 4 (htonl n) = [n / 2 ^ 24 % 256, n / 2 ^ 16 % 256, n / 2 ^ 8 % 256, n % 256] := by
  have h32 : n < 4294967296 := by norm_num at h; exact h
  rw [htonl_eq n h,
    packBytes_four_swap (n % 256) (n / 256 % 256) (n / 65536 % 256) (n / 16777216)
      (Nat.mod_lt _ (by norm_num)) (Nat.mod_lt _ (by norm_num))
      (Nat.mod_lt _ (by norm_num)) (by omega)]
  norm_num [List.cons.injEq]
  omega

/-- *C3* (corrected), counterexample: the round trip is **not** chunking
independent.  When every `recv` returns a single byte — a legal behaviour
of a TCP stream — the unlooped header read obtains one byte of the
eight-byte header, `struct.unpack` raises, and `receive_message` returns
the empty string instead of the sent payload. -/
theorem claim_roundtrip_cex :
    (∀ i : Nat, 1 ≤ (fun _ : Nat => 1) i) ∧
    receive_message flatCodec 8 ((send_message flatCodec 8 ("hi".toList)).getD [])
      (fun _ => 1) = some [] ∧
    some ([] : List Char) ≠ some ("hi".toList) :=
  ⟨fun _ => Nat.le_refl 1, by decide, by decide⟩

/-- *C3* (amended): `receive(send(payload))` reproduces `payload` exactly
for every payload whose pickled form fits the 32-bit length, across any
chunking of the **payload** bytes (every `recv` returning at least one
byte), provided the single unlooped header `recv` returns the whole
`calcsize("L")`-byte header. -/
theorem claim_transport_roundtrip (c : PickleCodec) (ulong_size : Nat) (p : List Char)
    (st : List Nat) (chunks : Nat → Nat) (hu : 4 ≤ ulong_size)
    (hst : send_message c ulong_size p = some st)
    (hc0 : ulong_size ≤ chunks 0) (hc : ∀ i, 1 ≤ chunks i) :
    receive_message c ulong_size st chunks = some p :=
  receive_message_send_message c ulong_size p st chunks hu hst hc0 hc

theorem claim_transport_roundtrip_witness :
    receive_message flatCodec 8 [0, 0, 0, 2, 0, 0, 0, 0, 104, 105] (fun _ => 8)
      = some ("hi".toList) :=
  claim_transport_roundtrip flatCodec 8 ("hi".toList) [0, 0, 0, 2, 0, 0, 0, 0, 104, 105]
    (fun _ => 8) (by decide) (by decide) (by decide)
    (fun _ => by show (1 : Nat) ≤ 8; decide)

/-- *C7* (corrected), counterexample: on an LP64 platform
(`struct.calcsize("L") = 8`) the emitted frame does not consist of a 4-byte
network-byte-order length followed by the payload — the header is 8 bytes
of `htonl(length)` packed in native (little-endian) order. -/
theorem claim_wire_framing_cex :
    (send_message flatCodec 8 ("a".toList)).getD [] ≠ specFrame (flatCodec.dumps ("a".toList)) := by
  decide

/-- *C7* (amended): every frame emitted by `send_message` is a
`calcsize("L")`-byte header holding `htonl(payload length)` in native byte
order, followed by exactly the payload bytes; on a platform where
`calcsize("L") = 4` (little-endian) this coincides with the 4-byte
network-byte-order length field the specification prescribes. -/
theorem claim_wire_framing_amended :
    (∀ (c : PickleCodec) (ulong_size : Nat) (p : List Char) (st : List Nat),
       send_message c ulong_size p = some st →
       st = packBytes ulong_size (htonl (c.dumps p).length) ++ c.dumps p ∧
       (packBytes ulong_size (htonl (c.dumps p).length)).length = ulong_size) ∧
    (∀ (c : PickleCodec) (p : List Char) (st : List Nat),
       send_message c 4 p = some st → st = specFrame (c.dumps p)) := by
  constructor
  · intro c ulong_size p st hst
    unfold send_message at hst
    by_cases h32 : (c.dumps p).length < 2 ^ 32
    · simp only [h32, if_true, Option.some.injEq] at hst
      exact ⟨hst.symm, packBytes_length _ _⟩
    · simp only [if_neg h32] at hst
      cases hst
  · intro c p st hst
    unfold send_message at hst
    by_cases h32 : (c.dumps p).length < 2 ^ 32
    · simp only [h32, if_true, Option.some.injEq] at hst
      rw [← hst, packBytes_four_htonl _ h32]
      rfl
    · simp only [if_neg h32] at hst
      cases hst

theorem claim_wire_framing_amended_witness :
    ([0, 0, 0, 1, 0, 0, 0, 0, 97] : List Nat)
        = packBytes 8 (htonl (flatCodec.dumps ("a".toList)).length) ++ flatCodec.dumps ("a".toList) ∧
    ([0, 0, 0, 1, 97] : List Nat) = specFrame (flatCodec.dumps ("a".toList)) :=
  ⟨(claim_wire_framing_amended.1 flatCodec 8 ("a".toList) [0, 0, 0, 1, 0, 0, 0, 0, 97] (by decide)).1,
   claim_wire_framing_amended.2 flatCodec ("a".toList) [0, 0, 0, 1, 97] (by decide)⟩

/-! ## Rate-limiter lemmas -/

theorem check_rate_length_le (max_messages : Nat) (time_window : Int) (times : List Int)
    (now : Int) (h : times.length ≤ max_messages) :
    ((check_rate max_messages time_window times now).2).length ≤ max_messages := by
  unfold check_rate
  have hf : (times.filter (fun t => now - t < time_window)).length ≤ times.length :=
    List.length_filter_le _ _
  by_cases hden : max_messages ≤ (times.filter (fun t => now - t < time_window)).length
  · simp only [hden, if_true]
    omega
  · simp only [hden, if_false]
    simp only [List.length_append, List.length_cons, List.length_nil]
    omega

theorem run_checks_length_le (max_messages : Nat) (time_window : Int) :
    ∀ (calls times : List Int), times.length ≤ max_messages →
      ((run_checks max_messages time_window calls times).2).length ≤ max_messages := by
  intro calls
  induction calls with
  | nil => intro times h; exact h
  | cons now rest ih =>
    intro times h
    exact ih _ (check_rate_length_le max_messages time_window times now h)

theorem run_checks_all_admitted (max_messages : Nat) (time_window : Int) :
    ∀ (ts acc : List Int),
      acc.length + ts.length ≤ max_messages →
      (∀ x ∈ acc ++ ts, ∀ y ∈ acc ++ ts, x - y < time_window) →
      run_checks max_messages time_window ts acc = (List.replicate ts.length true, acc ++ ts) := by
  intro ts
  induction ts with
  | nil =>
    intro acc _ _
    simp [run_checks]
  | cons now rest ih =>
    intro acc hlen hpair
    have hkeep : acc.filter (fun t => now - t < time_window) = acc := by
      rw [List.filter_eq_self]
      intro a ha
      simp only [decide_eq_true_eq]
      exact hpair now (by simp) a (by simp [ha])
    have hnd : ¬ max_messages ≤ (acc.filter (fun t => now - t < time_window)).length := by
      rw [hkeep]
      simp only [List.length_cons] at hlen
      omega
    have hnd' : ¬ max_messages ≤ acc.length := by
      rw [hkeep] at hnd
      exact hnd
    have hrec := ih (acc ++ [now])
      (by simp only [List.length_append, List.length_cons, List.length_nil] at hlen ⊢; omega)
      (by
        intro x hx y hy
        apply hpair <;> simp only [List.mem_append, List.mem_cons, List.mem_singleton] at hx hy ⊢ <;> tauto)
    simp only [run_checks, check_rate, hkeep, hnd', if_false, hrec, List.length_cons,
      List.replicate_succ]
    simp [List.append_assoc]

/-- *C8*: after any sequence of `check_rate` calls starting from the empty
record, the stored timestamp list holds at most `max_messages` entries —
a denied call stores only the pruned list and an admitting call extends a
list that was strictly below the limit. -/
theorem claim_rate_window_bound (max_messages : Nat) (time_window : Int) (calls : List Int) :
    ((run_checks max_messages time_window calls []).2).length ≤ max_messages :=
  run_checks_length_le max_messages time_window calls [] (by simp)

/-- *C4*: with limit `N` (the number of admitted requests) over window `W`:
`N` requests all within `W` of the first are all admitted and all recorded;
an immediate further request (still within `W` of the oldest) is denied;
and a request made after `W` or more has elapsed since the oldest admitted
request (while within `W` of the others) is admitted, because the pruning
step discards the expired oldest timestamp first. -/
theorem claim_rate_limit_window (time_window : Int) (t0 : Int) (rest : List Int)
    (hmem : ∀ t ∈ t0 :: rest, t0 ≤ t ∧ t - t0 < time_window) :
    (run_checks (t0 :: rest).length time_window (t0 :: rest) []
        = (List.replicate (t0 :: rest).length true, t0 :: rest)) ∧
    (∀ now : Int, (∀ t ∈ t0 :: rest, t ≤ now) → now - t0 < time_window →
       (check_rate (t0 :: rest).length time_window (t0 :: rest) now).1 = false) ∧
    (∀ now : Int, time_window ≤ now - t0 →
       (check_rate (t0 :: rest).length time_window (t0 :: rest) now).1 = true) := by
  refine ⟨?_, ?_, ?_⟩
  · have := run_checks_all_admitted (t0 :: rest).length time_window (t0 :: rest) []
      (by simp) ?_
    · simpa using this
    · intro x hx y hy
      simp only [List.nil_append] at hx hy
      have hx' := hmem x hx
      have hy' := hmem y hy
      omega
  · intro now hle hwin
    have hkeep : (t0 :: rest).filter (fun t => now - t < time_window) = t0 :: rest := by
      rw [List.filter_eq_self]
      intro a ha
      simp only [decide_eq_true_eq]
      have := hmem a ha
      omega
    unfold check_rate
    simp [hkeep]
  · intro now hold
    have hkeep : (t0 :: rest).filter (fun t => now - t < time_window)
        = rest.filter (fun t => decide (now - t < time_window)) := by
      simp only [List.filter_cons]
      rw [if_neg (by simp only [decide_eq_true_eq]; omega)]
    have hlen : (rest.filter (fun t => decide (now - t < time_window))).length ≤ rest.length :=
      List.length_filter_le _ _
    unfold check_rate
    simp only [hkeep, List.length_cons]
    rw [if_neg (by omega)]

theorem claim_rate_limit_window_witness :
    (run_checks 3 60 [0, 10, 20] [] = ([true, true, true], [0, 10, 20])) ∧
    (check_rate 3 60 [0, 10, 20] 59).1 = false ∧
    (check_rate 3 60 [0, 10, 20] 60).1 = true := by
  have h := claim_rate_limit_window 60 0 [10, 20] (by decide)
  exact ⟨h.1, h.2.1 59 (by decide) (by decide), h.2.2 60 (by decide)⟩

/-! ## Offline-mailbox lemmas -/

theorem enqueue_all_other (target : List Char) :
    ∀ (es : List OfflineEntry) (mb : Mailbox) (n : List Char), n ≠ target →
      enqueue_all mb target es n = mb n := by
  intro es
  induction es with
  | nil => intro mb n _; rfl
  | cons e es ih =>
    intro mb n hn
    simp only [enqueue_all]
    rw [ih _ n hn]
    simp [enqueue_offline, hn]

theorem enqueue_all_target (target : List Char) :
    ∀ (es : List OfflineEntry) (e : OfflineEntry) (mb : Mailbox),
      enqueue_all mb target (e :: es) target = some ((mb target).getD [] ++ e :: es) := by
  intro es
  induction es with
  | nil =>
    intro e mb
    simp [enqueue_all, enqueue_offline]
  | cons e2 es ih =>
    intro e mb
    show enqueue_all (enqueue_offline mb target e) target (e2 :: es) target = _
    rw [ih e2 (enqueue_offline mb target e)]
    simp [enqueue_offline]

/-- *C2*: entries queued for an offline identity are delivered on its next
join all at once, formatted from their stored sender and timestamp, in
exactly the enqueue order; the queue is removed in the same step (other
identities' queues untouched), so an immediate second join delivers
nothing. -/
theorem claim_offline_mailbox (mb : Mailbox) (target : List Char) (es : List OfflineEntry)
    (h : mb target = none) :
    ((deliver_offline_messages (enqueue_all mb target es) target).1 = es.map format_offline) ∧
    ((deliver_offline_messages (enqueue_all mb target es) target).2 target = none) ∧
    (∀ n, n ≠ target → (deliver_offline_messages (enqueue_all mb target es) target).2 n = mb n) ∧
    (deliver_offline_messages ((deliver_offline_messages (enqueue_all mb target es) target).2) target
        = ([], (deliver_offline_messages (enqueue_all mb target es) target).2)) := by
  match es with
  | [] =>
    refine ⟨?_, ?_, ?_, ?_⟩
    · simp [enqueue_all, deliver_offline_messages, h]
    · simp [enqueue_all, deliver_offline_messages, h]
    · intro n hn
      simp [enqueue_all, deliver_offline_messages, h]
    · simp [enqueue_all, deliver_offline_messages, h]
  | e :: es =>
    have htgt : enqueue_all mb target (e :: es) target = some (e :: es) := by
      rw [enqueue_all_target target es e mb, h]
      rfl
    refine ⟨?_, ?_, ?_, ?_⟩
    · simp [deliver_offline_messages, htgt]
    · simp [deliver_offline_messages, htgt]
    · intro n hn
      simp only [deliver_offline_messages, htgt]
      simp only [if_neg hn]
      exact enqueue_all_other target (e :: es) mb n hn
    · simp [deliver_offline_messages, htgt]

theorem claim_offline_mailbox_witness :
    ((deliver_offline_messages
        (enqueue_all (fun _ => none) ("carol".toList)
          [(("bob".toList), ("hi".toList), ("12:00:00".toList))]) ("carol".toList)).1
      = [("[12:00:00] OFFLINE MESSAGE from bob: hi".toList)]) ∧
    ((deliver_offline_messages
        (enqueue_all (fun _ => none) ("carol".toList)
          [(("bob".toList), ("hi".toList), ("12:00:00".toList))]) ("carol".toList)).2 ("carol".toList)
      = none) := by
  have h := claim_offline_mailbox (fun _ => none) ("carol".toList)
    [(("bob".toList), ("hi".toList), ("12:00:00".toList))] rfl
  refine ⟨?_, h.2.1⟩
  rw [h.1]
  decide

/-! ## Python `split` lemmas -/

theorem pySplitAux_nil (sep : List Char) (fuel : Nat) : pySplitAux sep fuel [] = [[]] := by
  cases fuel <;> rfl

theorem pySplitAux_ne_nil (sep : List Char) : ∀ (fuel : Nat) (s : List Char),
    pySplitAux sep fuel s ≠ [] := by
  intro fuel
  induction fuel with
  | zero =>
    intro s
    cases s <;> simp [pySplitAux]
  | succ f ih =>
    intro s
    cases s with
    | nil => simp [pySplitAux]
    | cons ch t =>
      by_cases hb : sep ≠ [] ∧ sep.isPrefixOf (ch :: t)
      · simp [pySplitAux, hb]
      · simp only [pySplitAux, if_neg hb]
        rcases hh : pySplitAux sep f t with _ | ⟨hd, tl⟩ <;> simp

theorem pySplit_ne_nil (sep s : List Char) : pySplit sep s ≠ [] :=
  pySplitAux_ne_nil sep s.length s

theorem pySplitAux_eq_pySplit_aux (sep : List Char) :
    ∀ (n fuel : Nat) (s : List Char), s.length ≤ n → s.length ≤ fuel →
      pySplitAux sep fuel s = pySplit sep s := by
  intro n
  induction n using Nat.strong_induction_on with
  | _ n ih =>
    intro fuel s hn hf
    match s with
    | [] => rw [pySplitAux_nil, pySplit, pySplitAux_nil]
    | ch :: t =>
      cases fuel with
      | zero =>
        simp only [List.length_cons] at hf
        omega
      | succ f =>
        simp only [List.length_cons] at hn hf
        by_cases hb : sep ≠ [] ∧ sep.isPrefixOf (ch :: t)
        · obtain ⟨hne, hpre⟩ := hb
          have hslen : 1 ≤ sep.length := by
            cases sep with
            | nil => exact absurd rfl hne
            | cons a s' => simp
          have hdlen : ((ch :: t).drop sep.length).length ≤ t.length := by
            simp only [List.length_drop, List.length_cons]
            omega
          rw [show pySplitAux sep (f + 1) (ch :: t)
              = [] :: pySplitAux sep f ((ch :: t).drop sep.length) from by
            simp only [pySplitAux, if_pos (And.intro hne hpre)]]
          rw [show pySplit sep (ch :: t)
              = [] :: pySplitAux sep t.length ((ch :: t).drop sep.length) from by
            simp only [pySplit, List.length_cons, pySplitAux, if_pos (And.intro hne hpre)]]
          congr 1
          rw [ih ((ch :: t).drop sep.length).length (by omega) f _ le_rfl (by omega)]
          rw [ih ((ch :: t).drop sep.length).length (by omega) t.length _ le_rfl (by omega)]
        · rw [show pySplitAux sep (f + 1) (ch :: t)
              = (match pySplitAux sep f t with
                 | [] => [[ch]]
                 | hd :: tl => (ch :: hd) :: tl) from by
            simp only [pySplitAux, if_neg hb]]
          rw [show pySplit sep (ch :: t)
              = (match pySplitAux sep t.length t with
                 | [] => [[ch]]
                 | hd :: tl => (ch :: hd) :: tl) from by
            simp only [pySplit, List.length_cons, pySplitAux, if_neg hb]]
          rw [ih t.length (by omega) f t le_rfl (by omega)]
          rw [ih t.length (by omega) t.length t le_rfl le_rfl]

theorem pySplitAux_eq_pySplit (sep : List Char) (fuel : Nat) (s : List Char)
    (h : s.length ≤ fuel) : pySplitAux sep fuel s = pySplit sep s :=
  pySplitAux_eq_pySplit_aux sep s.length fuel s le_rfl h

theorem pySplit_sep_append (sep t : List Char) (hsep : sep ≠ []) :
    pySplit sep (sep ++ t) = [] :: pySplit sep t := by
  obtain ⟨a, sep', rfl⟩ := List.exists_cons_of_ne_nil hsep
  have hpre : (a :: sep').isPrefixOf ((a :: sep') ++ t) :=
    List.isPrefixOf_iff_prefix.mpr (List.prefix_append _ _)
  show pySplitAux (a :: sep') ((a :: sep') ++ t).length ((a :: sep') ++ t) = _
  rw [show ((a :: sep') ++ t).length = (sep'.length + t.length) + 1 from by
    simp only [List.length_append, List.length_cons]
    omega]
  simp only [List.cons_append] at hpre ⊢
  rw [show pySplitAux (a :: sep') (sep'.length + t.length + 1) (a :: (sep' ++ t))
      = [] :: pySplitAux (a :: sep') (sep'.length + t.length)
          ((a :: (sep' ++ t)).drop (a :: sep').length) from by
    simp only [pySplitAux, if_pos (And.intro (List.cons_ne_nil a sep') hpre)]]
  congr 1
  rw [show (a :: (sep' ++ t)).drop (a :: sep').length = t from by
    simp [List.drop_left]]
  exact pySplitAux_eq_pySplit _ _ _ (by omega)

theorem pySplit_cons_no_sep (sep : List Char) (ch : Char) (t : List Char)
    (h : ¬ (sep ≠ [] ∧ sep.isPrefixOf (ch :: t))) :
    pySplit sep (ch :: t) = (ch :: (pySplit sep t).headD []) :: (pySplit sep t).tail := by
  obtain ⟨hd, tl, heq⟩ := List.exists_cons_of_ne_nil (pySplitAux_ne_nil sep t.length t)
  have heq' : pySplit sep t = hd :: tl := heq
  rw [show pySplit sep (ch :: t)
      = (match pySplitAux sep t.length t with
         | [] => [[ch]]
         | hd :: tl => (ch :: hd) :: tl) from by
    simp only [pySplit, List.length_cons, pySplitAux, if_neg h]]
  rw [heq, heq']
  rfl

theorem pySplit_no_sep (sep : List Char) : ∀ (t : List Char), ¬ sep <:+: t →
    pySplit sep t = [t] := by
  intro t
  induction t with
  | nil =>
    intro _
    rw [pySplit, pySplitAux_nil]
  | cons ch t ih =>
    intro h
    have hnp : ¬ (sep ≠ [] ∧ sep.isPrefixOf (ch :: t)) := by
      rintro ⟨hne, hp⟩
      exact h (List.IsPrefix.isInfix (List.isPrefixOf_iff_prefix.mp hp))
    rw [pySplit_cons_no_sep sep ch t hnp, ih (fun hinf => h (List.infix_cons hinf))]
    rfl

/-! ## Relay rewrite lemmas -/

theorem nameSep_ne_nil : nameSep ≠ [] := by decide

theorem extract_of_clean (name : List Char) (hocc : ¬ nameSep <:+: name) :
    (pySplit nameSep (nameSep ++ name)).getD 1 [] = name := by
  rw [pySplit_sep_append nameSep name nameSep_ne_nil, pySplit_no_sep nameSep name hocc]
  rfl

theorem extract_star (name : List Char) (h : ['*'].isPrefixOf name) :
    ['*'].isPrefixOf ((pySplit nameSep (nameSep ++ name)).getD 1 []) := by
  obtain ⟨t, rfl⟩ : ∃ t, name = '*' :: t := by
    cases name with
    | nil => simp [List.isPrefixOf] at h
    | cons c t =>
      simp [List.isPrefixOf] at h
      exact ⟨t, by rw [h]⟩
  rw [pySplit_sep_append _ _ nameSep_ne_nil]
  rw [pySplit_cons_no_sep nameSep '*' t (by simp [nameSep, List.isPrefixOf])]
  simp [List.isPrefixOf]

theorem rewrite_nickname_clean (name : List Char) (hstar : ¬ ['*'].isPrefixOf name)
    (hocc : ¬ nameSep <:+: name) :
    rewrite_nickname (nameSep ++ name) = nameSep ++ '*' :: name := by
  unfold rewrite_nickname
  rw [if_pos (List.isPrefixOf_iff_prefix.mpr (List.prefix_append _ _))]
  rw [extract_of_clean name hocc]
  rw [if_pos hstar]

theorem rewrite_nickname_marked (name : List Char) (hstar : ['*'].isPrefixOf name) :
    rewrite_nickname (nameSep ++ name) = nameSep ++ name := by
  unfold rewrite_nickname
  rw [if_pos (List.isPrefixOf_iff_prefix.mpr (List.prefix_append _ _))]
  rw [if_neg (not_not_intro (extract_star name hstar))]

theorem forward_data_no_first (is_c2s : Bool) : ∀ (frames : List (List Char)),
    [] ∉ frames → forward_data is_c2s false frames = frames := by
  intro frames
  induction frames with
  | nil => intro _; rfl
  | cons f rest ih =>
    intro h
    have hf : f ≠ [] := fun e => h (by rw [e]; exact List.mem_cons_self _ _)
    simp only [forward_data, if_neg hf, Bool.false_eq_true, false_and, and_false, if_false]
    rw [ih (fun hm => h (List.mem_cons_of_mem _ hm))]

theorem forward_data_upstream (first : Bool) : ∀ (frames : List (List Char)),
    [] ∉ frames → forward_data false first frames = frames := by
  intro frames
  induction frames with
  | nil => intro _; rfl
  | cons f rest ih =>
    intro h
    have hf : f ≠ [] := fun e => h (by rw [e]; exact List.mem_cons_self _ _)
    simp only [forward_data, if_neg hf, Bool.false_eq_true, false_and, if_false]
    rw [ih (fun hm => h (List.mem_cons_of_mem _ hm))]

/-- *C5* (corrected), counterexample: the rewritten first frame is **not**
`NAME: *` + the entire remainder.  `data.split('NAME: ')[1]` cuts the name
at the next occurrence of `'NAME: '`, so the frame `NAME: a NAME: b` is
forwarded as `NAME: *a ` — the trailing `NAME: b` is silently dropped. -/
theorem claim_relay_rewrite_cex :
    forward_data true true [("NAME: a NAME: b".toList)] = [("NAME: *a ".toList)] ∧
    ("NAME: *a ".toList) ≠ ("NAME: *a NAME: b".toList) := by
  exact ⟨by decide, by decide⟩

/-- *C5* (amended): exactly the first client→upstream frame matching
`NAME: <name>` with `<name>` not already starting with `*` is rewritten,
to `NAME: *` followed by `data.split('NAME: ')[1]` — which is the entire
remainder precisely when the remainder contains no further occurrence of
`'NAME: '`.  A first frame whose name already carries the marker, a first
frame not matching the pattern, all subsequent frames, and every
upstream→client frame are forwarded unmodified. -/
theorem claim_relay_rewrite_amended :
    (∀ (name : List Char) (rest : List (List Char)),
       ¬ ['*'].isPrefixOf name → ¬ nameSep <:+: name → [] ∉ rest →
       forward_data true true ((nameSep ++ name) :: rest)
         = (nameSep ++ '*' :: name) :: rest) ∧
    (∀ (name : List Char) (rest : List (List Char)),
       ['*'].isPrefixOf name → [] ∉ rest →
       forward_data true true ((nameSep ++ name) :: rest) = (nameSep ++ name) :: rest) ∧
    (∀ (f : List Char) (rest : List (List Char)),
       f ≠ [] → ¬ nameSep.isPrefixOf f → [] ∉ rest →
       forward_data true true (f :: rest) = f :: rest) ∧
    (∀ (frames : List (List Char)) (first : Bool), [] ∉ frames →
       forward_data false first frames = frames) := by
  refine ⟨?_, ?_, ?_, fun frames first h => forward_data_upstream first frames h⟩
  · intro name rest hstar hocc hrest
    have hne : nameSep ++ name ≠ [] := by simp [nameSep]
    simp only [forward_data, if_neg hne, true_and,
      List.isPrefixOf_iff_prefix.mpr (List.prefix_append nameSep name), if_true, if_pos]
    rw [rewrite_nickname_clean name hstar hocc, forward_data_no_first true rest hrest]
  · intro name rest hstar hrest
    have hne : nameSep ++ name ≠ [] := by simp [nameSep]
    simp only [forward_data, if_neg hne, true_and,
      List.isPrefixOf_iff_prefix.mpr (List.prefix_append nameSep name), if_true, if_pos]
    rw [rewrite_nickname_marked name hstar, forward_data_no_first true rest hrest]
  · intro f rest hne hpre hrest
    simp only [forward_data, if_neg hne, true_and, hpre, if_false, and_false]
    simp only [Bool.false_eq_true, if_false, if_true, ite_true, ite_false]
    rw [forward_data_no_first true rest hrest]

theorem claim_relay_rewrite_amended_witness :
    forward_data true true [nameSep ++ ("dan".toList), ("hello".toList)]
        = [nameSep ++ '*' :: ("dan".toList), ("hello".toList)] ∧
    forward_data true true [nameSep ++ ('*' :: ("dan".toList))]
        = [nameSep ++ '*' :: ("dan".toList)] ∧
    forward_data true true [("hello".toList)] = [("hello".toList)] ∧
    forward_data false true [("CLIENT: dan".toList)] = [("CLIENT: dan".toList)] :=
  ⟨claim_relay_rewrite_amended.1 ("dan".toList) [("hello".toList)]
      (by decide) (by decide) (by decide),
   claim_relay_rewrite_amended.2.1 ('*' :: ("dan".toList)) [] (by decide) (by decide),
   claim_relay_rewrite_amended.2.2.1 ("hello".toList) [] (by decide) (by decide) (by decide),
   claim_relay_rewrite_amended.2.2.2 [("CLIENT: dan".toList)] true (by decide)⟩

/-! ## Identity-registry lemmas -/

theorem gen_loop_not_held (held : List (List Char)) (base : List Char) :
    ∀ (oracle : List Nat) (n : List Char), gen_loop held base oracle = some n → n ∉ held := by
  intro oracle
  induction oracle with
  | nil => intro n h; cases h
  | cons k o ih =>
    intro n h
    simp only [gen_loop] at h
    by_cases hm : base ++ threeDigits k ∈ held
    · rw [if_pos hm] at h
      exact ih n h
    · rw [if_neg hm] at h
      cases h
      exact hm

theorem generate_unique_not_held (held : List (List Char)) (base : List Char)
    (oracle : List Nat) (n : List Char) (h : generate_unique_nickname held base oracle = some n) :
    n ∉ held := by
  unfold generate_unique_nickname at h
  by_cases hm : base ∈ held
  · rw [if_pos hm] at h
    exact gen_loop_not_held held base oracle n h
  · rw [if_neg hm] at h
    cases h
    exact hm

theorem gen_loop_forms (held : List (List Char)) (base : List Char) :
    ∀ (oracle : List Nat) (n : List Char), gen_loop held base oracle = some n →
      ∃ k, n = base ++ threeDigits k := by
  intro oracle
  induction oracle with
  | nil => intro n h; cases h
  | cons k o ih =>
    intro n h
    simp only [gen_loop] at h
    by_cases hm : base ++ threeDigits k ∈ held
    · rw [if_pos hm] at h
      exact ih n h
    · rw [if_neg hm] at h
      cases h
      exact ⟨k, rfl⟩

theorem generate_unique_forms (held : List (List Char)) (base : List Char)
    (oracle : List Nat) (n : List Char) (h : generate_unique_nickname held base oracle = some n) :
    n = base ∨ ∃ k, n = base ++ threeDigits k := by
  unfold generate_unique_nickname at h
  by_cases hm : base ∈ held
  · rw [if_pos hm] at h
    exact Or.inr (gen_loop_forms held base oracle n h)
  · rw [if_neg hm] at h
    cases h
    exact Or.inl rfl

theorem digitChar_ne_star : ∀ m, m < 10 → Nat.digitChar m ≠ '*' := by decide

theorem threeDigits_not_star (k : Nat) : ¬ ['*'].isPrefixOf (threeDigits k) := by
  simp only [threeDigits, List.isPrefixOf, Bool.and_eq_true, beq_iff_eq, not_and]
  intro hstar
  exact absurd hstar.symm (digitChar_ne_star _ (Nat.mod_lt _ (by norm_num)))

theorem handshake_regStep_cases (held : List (List Char)) (frame : List Char)
    (oracle : List Nat) :
    (handle_new_connection held frame oracle).2 = held ∨
    (∃ n, (handle_new_connection held frame oracle) = (.joined n, n :: held) ∧ n ∉ held) := by
  unfold handle_new_connection
  by_cases h1 : frame = [] ∨ ¬ nameSep.isPrefixOf frame
  · rw [if_pos h1]
    exact Or.inl rfl
  · rw [if_neg h1]
    by_cases h2 : ['*'].isPrefixOf ((pySplit nameSep frame).getD 1 [])
    · rw [if_pos h2]
      exact Or.inl rfl
    · rw [if_neg h2]
      rcases hg : generate_unique_nickname held ((pySplit nameSep frame).getD 1 []) oracle with _ | n
      · exact Or.inl rfl
      · exact Or.inr ⟨n, rfl, generate_unique_not_held _ _ _ _ hg⟩

theorem regStep_nodup (held : List (List Char)) (e : RegEvent) (h : held.Nodup) :
    (regStep held e).Nodup := by
  cases e with
  | leave name => exact List.Nodup.erase name h
  | join frame oracle =>
    rcases handshake_regStep_cases held frame oracle with hc | ⟨n, hc, hn⟩
    · rw [regStep, hc]
      exact h
    · rw [regStep, hc]
      exact List.Nodup.cons hn h

theorem foldl_regStep_nodup : ∀ (events : List RegEvent) (held : List (List Char)),
    held.Nodup → (events.foldl regStep held).Nodup := by
  intro events
  induction events with
  | nil => intro held h; exact h
  | cons e rest ih =>
    intro held h
    exact ih _ (regStep_nodup held e h)

/-- *C1*: the registry never holds two active sessions under one nickname:
starting empty, every sequence of handshakes and disconnects leaves the
nickname list duplicate-free; the name `generate_unique_nickname` returns
is never currently held; and a disconnect removes exactly the leaver's
entry, after which the name is immediately claimable unchanged. -/
theorem claim_identity_registry_unique :
    (∀ events : List RegEvent, (events.foldl regStep []).Nodup) ∧
    (∀ (held : List (List Char)) (base : List Char) (oracle : List Nat) (n : List Char),
       generate_unique_nickname held base oracle = some n → n ∉ held) ∧
    (∀ (held : List (List Char)) (base : List Char) (oracle : List Nat),
       held.Nodup →
       generate_unique_nickname (regStep held (.leave base)) base oracle = some base) := by
  refine ⟨fun events => foldl_regStep_nodup events [] List.nodup_nil,
    generate_unique_not_held, ?_⟩
  intro held base oracle hnd
  have hmem : base ∉ held.erase base := fun hm =>
    absurd rfl ((List.Nodup.mem_erase_iff hnd).mp hm).1
  show generate_unique_nickname (held.erase base) base oracle = some base
  unfold generate_unique_nickname
  rw [if_neg hmem]

theorem claim_identity_registry_unique_witness :
    (([RegEvent.join ("NAME: bob".toList) [], RegEvent.leave ("bob".toList)].foldl
        regStep []).Nodup) ∧
    ("bob005".toList) ∉ [("bob".toList)] ∧
    generate_unique_nickname (regStep [("bob".toList)] (.leave ("bob".toList)))
        ("bob".toList) [] = some ("bob".toList) :=
  ⟨claim_identity_registry_unique.1 [RegEvent.join ("NAME: bob".toList) [],
      RegEvent.leave ("bob".toList)],
   claim_identity_registry_unique.2.1 [("bob".toList)] ("bob".toList) [5]
      ("bob005".toList) (by decide),
   claim_identity_registry_unique.2.2 [("bob".toList)] ("bob".toList) [] (by decide)⟩

/-- *C6*: a handshake whose requested nickname starts with the reserved
marker `*` is rejected — an `ERROR` frame is sent, the connection closed,
and the registry is left unchanged; moreover no handshake ever installs an
assigned nickname beginning with `*`, since the requested name is checked
and the random suffixes are digits. -/
theorem claim_reserved_marker :
    (∀ (held : List (List Char)) (name : List Char) (oracle : List Nat),
       ['*'].isPrefixOf name →
       handle_new_connection held (nameSep ++ name) oracle = (.rejected, held)) ∧
    (∀ (held : List (List Char)) (frame : List Char) (oracle : List Nat)
       (n : List Char) (held' : List (List Char)),
       handle_new_connection held frame oracle = (.joined n, held') →
       ¬ ['*'].isPrefixOf n) := by
  constructor
  · intro held name oracle hstar
    unfold handle_new_connection
    rw [if_neg (by
      push_neg
      exact ⟨by simp [nameSep], List.isPrefixOf_iff_prefix.mpr (List.prefix_append _ _)⟩)]
    rw [if_pos (extract_star name hstar)]
  · intro held frame oracle n held' h
    unfold handle_new_connection at h
    by_cases h1 : frame = [] ∨ ¬ nameSep.isPrefixOf frame
    · rw [if_pos h1] at h
      cases h
    · rw [if_neg h1] at h
      by_cases h2 : ['*'].isPrefixOf ((pySplit nameSep frame).getD 1 [])
      · rw [if_pos h2] at h
        cases h
      · rw [if_neg h2] at h
        rcases hg : generate_unique_nickname held ((pySplit nameSep frame).getD 1 []) oracle
          with _ | m
        · rw [hg] at h
          cases h
        · rw [hg] at h
          injection h with h hh
          injection h with h
          subst h
          rcases generate_unique_forms _ _ _ _ hg with rfl | ⟨k, rfl⟩
          · exact h2
          · rcases hc : (pySplit nameSep frame).getD 1 [] with _ | ⟨c, t⟩
            · simp only [List.nil_append]
              exact threeDigits_not_star k
            · rw [hc] at h2
              simp only [List.cons_append, List.isPrefixOf, Bool.and_eq_true,
                beq_iff_eq] at h2 ⊢
              exact h2

theorem claim_reserved_marker_witness :
    handle_new_connection [] (nameSep ++ ("*dan".toList)) [] = (.rejected, []) ∧
    ¬ ['*'].isPrefixOf ("bob".toList) :=
  ⟨claim_reserved_marker.1 [] ("*dan".toList) [] (by decide),
   claim_reserved_marker.2 [] (nameSep ++ ("bob".toList)) [] ("bob".toList)
      [("bob".toList)] (by decide)⟩

/-! ## Generator termination lemmas -/

theorem threeDigits_mod (k : Nat) : threeDigits k = threeDigits (k % 1000) := by
  simp only [threeDigits]
  have e1 : k / 100 % 10 = k % 1000 / 100 % 10 := by omega
  have e2 : k / 10 % 10 = k % 1000 / 10 % 10 := by omega
  have e3 : k % 10 = k % 1000 % 10 := by omega
  rw [e1, e2, e3]

theorem gen_loop_succeeds (held : List (List Char)) (base : List Char) :
    ∀ (oracle : List Nat) (k : Nat), k ∈ oracle → base ++ threeDigits k ∉ held →
      ∃ n, gen_loop held base oracle = some n ∧ n ∉ held := by
  intro oracle
  induction oracle with
  | nil => intro k hk _; cases hk
  | cons k0 o ih =>
    intro k hk hfree
    simp only [gen_loop]
    by_cases hm : base ++ threeDigits k0 ∈ held
    · rw [if_pos hm]
      rcases List.mem_cons.mp hk with rfl | hk'
      · exact absurd hm hfree
      · exact ih k hk' hfree
    · rw [if_neg hm]
      exact ⟨_, rfl, hm⟩

theorem gen_loop_none (held : List (List Char)) (base : List Char)
    (hall : ∀ k, k < 1000 → base ++ threeDigits k ∈ held) :
    ∀ (oracle : List Nat), gen_loop held base oracle = none := by
  intro oracle
  induction oracle with
  | nil => rfl
  | cons k o ih =>
    simp only [gen_loop]
    rw [if_pos (by rw [threeDigits_mod]; exact hall (k % 1000) (Nat.mod_lt _ (by norm_num)))]
    exact ih

/-- *C10*: `generate_unique_nickname` returns immediately when the base
name is free; when the base is held, any draw of a suffix whose decorated
name is unheld makes the loop return that unheld name (so the loop
terminates as soon as the random stream hits one of the free suffixes, and
a free suffix exists among the 1000 equiprobable outcomes precisely when
the precondition holds); every returned name is unheld; and when the base
and all 1000 suffixed names are held, no random stream can ever make the
loop return — its termination requires the precondition. -/
theorem claim_gen_nickname_termination :
    (∀ (held : List (List Char)) (base : List Char) (oracle : List Nat),
       base ∉ held → generate_unique_nickname held base oracle = some base) ∧
    (∀ (held : List (List Char)) (base : List Char) (oracle : List Nat) (k : Nat),
       k ∈ oracle → base ++ threeDigits k ∉ held →
       ∃ n, generate_unique_nickname held base oracle = some n ∧ n ∉ held) ∧
    (∀ (held : List (List Char)) (base : List Char) (oracle : List Nat) (n : List Char),
       generate_unique_nickname held base oracle = some n → n ∉ held) ∧
    (∀ (held : List (List Char)) (base : List Char),
       base ∈ held → (∀ k, k < 1000 → base ++ threeDigits k ∈ held) →
       ∀ (oracle : List Nat), generate_unique_nickname held base oracle = none) := by
  refine ⟨?_, ?_, generate_unique_not_held, ?_⟩
  · intro held base oracle hfree
    unfold generate_unique_nickname
    rw [if_neg hfree]
  · intro held base oracle k hk hfree
    unfold generate_unique_nickname
    by_cases hm : base ∈ held
    · rw [if_pos hm]
      exact gen_loop_succeeds held base oracle k hk hfree
    · rw [if_neg hm]
      exact ⟨base, rfl, hm⟩
  · intro held base hmem hall oracle
    unfold generate_unique_nickname
    rw [if_pos hmem]
    exact gen_loop_none held base hall oracle

theorem claim_gen_nickname_termination_witness :
    generate_unique_nickname [] ("bob".toList) [] = some ("bob".toList) ∧
    (∃ n, generate_unique_nickname [("bob".toList)] ("bob".toList) [7] = some n
       ∧ n ∉ [("bob".toList)]) ∧
    ("bob007".toList) ∉ [("bob".toList)] ∧
    generate_unique_nickname
      (("x".toList) :: (List.range 1000).map (fun k => ("x".toList) ++ threeDigits k))
      ("x".toList) [3] = none :=
  ⟨claim_gen_nickname_termination.1 [] ("bob".toList) [] (by decide),
   claim_gen_nickname_termination.2.1 [("bob".toList)] ("bob".toList) [7] 7
     (by decide) (by decide),
   claim_gen_nickname_termination.2.2.1 [("bob".toList)] ("bob".toList) [7]
     ("bob007".toList) (by decide),
   claim_gen_nickname_termination.2.2.2
     (("x".toList) :: (List.range 1000).map (fun k => ("x".toList) ++ threeDigits k))
     ("x".toList) (List.mem_cons_self _ _)
     (fun k hk => List.mem_cons_of_mem _ (List.mem_map.mpr ⟨k, List.mem_range.mpr hk, rfl⟩))
     [3]⟩

/-! ## Empty payload vs. disconnect -/

/-- *C9*: `receive_message` yields the empty string both for a cleanly
closed peer (no header bytes) and for a frame whose pickled payload is the
empty string, and `handle_client_message` treats an empty decoded payload
exactly as a disconnect: nickname and rate state released, socket removed,
leave notice broadcast and the member list republished — the empty message
is never routed and the public-message counter is untouched. -/
theorem claim_empty_payload_disconnect :
    (∀ (c : PickleCodec) (ulong_size : Nat) (chunks : Nat → Nat),
       receive_message c ulong_size [] chunks = some []) ∧
    (∀ (c : PickleCodec) (ulong_size : Nat) (st : List Nat) (chunks : Nat → Nat),
       4 ≤ ulong_size → send_message c ulong_size [] = some st →
       ulong_size ≤ chunks 0 → (∀ i, 1 ≤ chunks i) →
       receive_message c ulong_size st chunks = some []) ∧
    (∀ (st : DispState) (sock : Nat) (now : Int) (ts : List Char),
       handle_client_message st sock now ts [] = handle_client_disconnect st sock) ∧
    (∀ (st : DispState) (sock : Nat) (now : Int) (ts : List Char) (addr : Nat)
       (name : List Char),
       (st.clientmap.filter (fun p => p.1 = sock)).head? = some (sock, (addr, name)) →
       ((handle_client_message st sock now ts []).1.nickname_map
           = dictDel st.nickname_map name) ∧
       ((handle_client_message st sock now ts []).1.outputs = st.outputs.erase sock) ∧
       ((handle_client_message st sock now ts []).1.rate_times
           = dictDel st.rate_times name) ∧
       ((handle_client_message st sock now ts []).1.total_messages = st.total_messages) ∧
       (∀ o ∈ (handle_client_message st sock now ts []).1.outputs,
          (o, name ++ (" left (Total Clients: ".toList) ++ intChars (st.clients - 1)
            ++ (")".toList)) ∈ (handle_client_message st sock now ts []).2)) := by
  have hdisc : ∀ (st : DispState) (sock : Nat) (now : Int) (ts : List Char),
      handle_client_message st sock now ts [] = handle_client_disconnect st sock := by
    intro st sock now ts
    simp [handle_client_message]
  refine ⟨?_, ?_, hdisc, ?_⟩
  · intro c ulong_size chunks
    simp [receive_message]
  · intro c ulong_size st chunks hu hst hc0 hc
    exact receive_message_send_message c ulong_size [] st chunks hu hst hc0 hc
  · intro st sock now ts addr name hlook
    have hname : get_client_name st sock = name := by
      simp [get_client_name, hlook]
    rw [hdisc st sock now ts]
    unfold handle_client_disconnect
    rw [hname]
    refine ⟨rfl, rfl, rfl, rfl, ?_⟩
    intro o ho
    apply List.mem_append_left
    unfold broadcast
    rw [List.filter_eq_self.mpr (by intro a _; simp)]
    exact List.mem_map.mpr ⟨o, ho, rfl⟩

theorem claim_empty_payload_disconnect_witness :
    receive_message flatCodec 8 [] (fun _ => 1) = some [] ∧
    receive_message flatCodec 8 [0, 0, 0, 0, 0, 0, 0, 0] (fun _ => 8) = some [] ∧
    (handle_client_message
        ⟨2, [(1, (0, ("bob".toList))), (2, (0, ("ann".toList)))],
         [(("bob".toList), 1), (("ann".toList), 2)], [1, 2],
         [(("bob".toList), [0])], 5, 3, fun _ => none⟩ 1 0 [] []).1.nickname_map
      = dictDel [(("bob".toList), 1), (("ann".toList), 2)] ("bob".toList) ∧
    (handle_client_message
        ⟨2, [(1, (0, ("bob".toList))), (2, (0, ("ann".toList)))],
         [(("bob".toList), 1), (("ann".toList), 2)], [1, 2],
         [(("bob".toList), [0])], 5, 3, fun _ => none⟩ 1 0 [] []).1.outputs
      = [1, 2].erase 1 := by
  have h4 := claim_empty_payload_disconnect.2.2.2
    ⟨2, [(1, (0, ("bob".toList))), (2, (0, ("ann".toList)))],
     [(("bob".toList), 1), (("ann".toList), 2)], [1, 2],
     [(("bob".toList), [0])], 5, 3, fun _ => none⟩ 1 0 [] 0 ("bob".toList) (by decide)
  exact ⟨claim_empty_payload_disconnect.1 flatCodec 8 (fun _ => 1),
    claim_empty_payload_disconnect.2.1 flatCodec 8 [0, 0, 0, 0, 0, 0, 0, 0] (fun _ => 8)
      (by decide) (by decide) (by decide) (fun _ => by show (1 : Nat) ≤ 8; decide),
    h4.1, h4.2.1⟩

end ChatSpec
